import Mathlib

/-
Shallow embedding of the DPoS epoch-transition engine
(consensus/dpos/epoch_context.go): vote tallying, validator eviction,
validator lookup and the epoch election (sort / truncate / shuffle).

Modelling conventions:
* `common.Address` values are compared for equality by value and ordered by
  their `String()` form; since `String()` is injective, an address is
  modelled as a natural number standing for that canonical string (see
  `Addr` below).
* `big.Int` vote weights and mint counts are non-negative in this code
  (balance sums, block counts), so they are modelled as `Nat`.
* Go `int64` arithmetic on timestamps uses truncated division/remainder,
  modelled with `Int.tdiv` / `Int.tmod`; wrap-around of `int64` addition is
  modelled explicitly modulo 2^64.
* The authenticated tries are modelled as the deterministic sequences their
  iterators produce: the candidate index is a list of addresses (trie keys
  are unique), the delegate index is a function from candidate to its
  delegator list, and the ledger is a function from address to balance.
* Fallible Go functions return `Except`; a Go panic (out-of-range slice
  index) is modelled as the distinguished error `indexOutOfRange`.
* Package-level configuration constants (`epochInterval`, `blockInterval`,
  `maxValidatorSize`, `safeSize`, `timeOfFirstBlock`) are defined outside
  the embedded file and are passed as explicit parameters.
-/

namespace Dpos

/-- Addresses.  `common.Address` values are compared for equality by value
and ordered by their canonical `String()` form, which is injective; we model
an address as a natural number standing for that string, so that address
equality and the (fixed, strict, total) string order are both preserved.
`Nat` is used rather than `String` because Lean's string order does not
reduce in the kernel, which would block evaluation at concrete inputs. -/
abbrev Addr := ℕ

/-- Error outcomes of the embedded operations. -/
inductive DposErr where
  | noCandidates
  | noValidatorToKickout
  | tooFewCandidates
  | invalidMintTime
  | lookupFailed
  | indexOutOfRange
  deriving DecidableEq, Repr

/-- Element of `sortableAddresses`: an address paired with a `big.Int`
weight (a vote tally or a mint count). -/
structure sortableAddress where
  address : Addr
  weight : ℕ
  deriving DecidableEq, Repr

/-- Comparator `sortableAddresses.Less`:
returns `false` when `weight i < weight j`, `true` when `weight i > weight j`,
otherwise compares the address strings. -/
def sortableAddress.Less (a b : sortableAddress) : Bool :=
  if a.weight < b.weight then false
  else if b.weight < a.weight then true
  else decide (a.address < b.address)

/-- Non-strict order corresponding to `sort.Sort` with `Less`:
the sorted output satisfies `¬ Less out[j] out[i]` for `i ≤ j`,
i.e. it is `Pairwise sortLe`.  (Descending weight, ascending address.) -/
def sortLe (a b : sortableAddress) : Bool := ! sortableAddress.Less b a

/-- Non-strict order corresponding to `sort.Sort (sort.Reverse p)` used by
`kickoutValidator`: the reversed comparator is `Less j i`, so the
sorted output is `Pairwise revLe`.  (Ascending weight, descending address.) -/
def revLe (a b : sortableAddress) : Bool := ! sortableAddress.Less a b

/-- Propositional form of `sortLe`, used as the sorting relation. -/
def sortLeR (a b : sortableAddress) : Prop := sortLe a b = true

instance : DecidableRel sortLeR :=
  fun a b => inferInstanceAs (Decidable (sortLe a b = true))

/-- Propositional form of `revLe`. -/
def revLeR (a b : sortableAddress) : Prop := revLe a b = true

instance : DecidableRel revLeR :=
  fun a b => inferInstanceAs (Decidable (revLe a b = true))

/-- Result of `sort.Sort(candidates)` in `tryElect`.  Go's sort is unstable,
but `Less` is a strict total order on entries with distinct addresses, so the
sorted permutation is unique; insertion sort with the matching non-strict
order realises it. -/
def sortCandidates (l : List sortableAddress) : List sortableAddress :=
  List.insertionSort sortLeR l

/-- Result of `sort.Sort(sort.Reverse(needKickoutValidators))` in
`kickoutValidator`: the reversed comparator sorts by ascending weight with
ties broken by descending address. -/
def sortKickout (l : List sortableAddress) : List sortableAddress :=
  List.insertionSort revLeR l

/-- Go map assignment `votes[c] = w` on an association-list model of the
vote map: replace the binding if present, otherwise append it. -/
def mapSet : List (Addr × ℕ) → Addr → ℕ → List (Addr × ℕ)
  | [], c, w => [(c, w)]
  | (a, x) :: rest, c, w =>
      if a = c then (a, w) :: rest else (a, x) :: mapSet rest c w

/-- Go map read `score, ok := votes[c]`. -/
def mapGet : List (Addr × ℕ) → Addr → Option ℕ
  | [], _ => none
  | (a, x) :: rest, c => if a = c then some x else mapGet rest c

/-- Inner delegator loop of `countVotes`: for each delegator, read the
current score (zero when absent), add the delegator's balance, store it
back. -/
def tallyDelegators (balance : Addr → ℕ) (c : Addr) :
    List Addr → List (Addr × ℕ) → List (Addr × ℕ)
  | [], votes => votes
  | d :: ds, votes =>
      tallyDelegators balance c ds
        (mapSet votes c ((mapGet votes c).getD 0 + balance d))

/-- One candidate step of `countVotes`: with no delegators store a fresh
zero, otherwise run the delegator loop. -/
def countVotesStep (delegations : Addr → List Addr) (balance : Addr → ℕ)
    (votes : List (Addr × ℕ)) (c : Addr) : List (Addr × ℕ) :=
  match delegations c with
  | [] => mapSet votes c 0
  | d :: ds => tallyDelegators balance c (d :: ds) votes

/-- Model of `countVotes`: iterate the candidate index; error when it is empty;
otherwise accumulate each candidate's delegator balances into the vote
map. -/
def countVotes (candidates : List Addr) (delegations : Addr → List Addr)
    (balance : Addr → ℕ) : Except DposErr (List (Addr × ℕ)) :=
  if candidates.isEmpty then .error .noCandidates
  else .ok (candidates.foldl (countVotesStep delegations balance) [])

/-- Model of `lookupValidator`: reject timestamps that are not slot-aligned, then
index the validator list by `((now mod epochInterval) / blockInterval) mod
size` using Go's truncated `%` and `/`.  Go panics on a negative index;
the panic is modelled as `indexOutOfRange`. -/
def lookupValidator (epochInterval blockInterval : ℤ) (validators : List Addr)
    (now : ℤ) : Except DposErr Addr :=
  let offset := now.tmod epochInterval
  if offset.tmod blockInterval ≠ 0 then .error .invalidMintTime
  else
    let slot := offset.tdiv blockInterval
    if validators.length = 0 then .error .lookupFailed
    else
      let idx := slot.tmod (validators.length : ℤ)
      if h : 0 ≤ idx ∧ idx.toNat < validators.length then
        .ok (validators.get ⟨idx.toNat, h.2⟩)
      else .error .indexOutOfRange

/-- Configuration constants of the dpos package (defined in dpos.go, outside
this file); `maxValidatorSize` and `safeSize` are list sizes and therefore
naturals, the time-valued constants are Go `int64`. -/
structure Config where
  epochInterval : ℤ
  blockInterval : ℤ
  maxValidatorSize : ℕ
  safeSize : ℕ
  timeOfFirstBlock : ℤ

/-- Epoch duration used by `kickoutValidator`: the fixed `epochInterval`,
except that a first epoch whose span since the first block is shorter uses
that actual span. -/
def epochDuration (cfg : Config) (timeStamp : ℤ) : ℤ :=
  if timeStamp - cfg.timeOfFirstBlock < cfg.epochInterval then
    timeStamp - cfg.timeOfFirstBlock
  else cfg.epochInterval

/-- Inactivity threshold of `kickoutValidator`:
`epochDuration / blockInterval / maxValidatorSize / 2` in Go's truncated
`int64` division. -/
def kickoutThreshold (cfg : Config) (timeStamp : ℤ) : ℤ :=
  (((epochDuration cfg timeStamp).tdiv cfg.blockInterval).tdiv
    (cfg.maxValidatorSize : ℤ)).tdiv 2

/-- Collection loop of `kickoutValidator`: a validator whose mint count for
the evaluated epoch (zero when the record is missing) is strictly below the
threshold is collected, paired with its count. -/
def needKickoutValidators (cfg : Config) (timeStamp : ℤ)
    (mintCnt : Addr → Option ℕ) (validators : List Addr) :
    List sortableAddress :=
  validators.filterMap (fun v =>
    if (((mintCnt v).getD 0 : ℤ)) < kickoutThreshold cfg timeStamp then
      some ⟨v, (mintCnt v).getD 0⟩
    else none)

/-- Modelled from the spec: `DposContext.KickoutCandidate` (defined in the
repository outside src/) removes the given candidate from the candidate
index. -/
def kickoutCandidate (candidates : List Addr) (a : Addr) : List Addr :=
  candidates.erase a

/-- Eviction loop of `kickoutValidator`: walk the sorted collection; before
each removal, stop (successfully) when the tracked candidate count is at or
below `safeSize`; otherwise remove the candidate and decrement the count. -/
def evictLoop (safeSize : ℕ) :
    List sortableAddress → List Addr → ℕ → List Addr × ℕ
  | [], cands, cnt => (cands, cnt)
  | v :: rest, cands, cnt =>
      if cnt ≤ safeSize then (cands, cnt)
      else evictLoop safeSize rest (kickoutCandidate cands v.address) (cnt - 1)

/-- Model of `kickoutValidator`: fail on an empty validator set; collect the inactive
validators; if none, succeed with no change; otherwise sort them with the
reversed comparator, count candidates with a scan capped at
`needKickoutCnt + safeSize` (the Go loop breaks at the cap, yielding
`min length cap`), and run the eviction loop.  Returns the resulting
candidate index. -/
def kickoutValidator (cfg : Config) (timeStamp : ℤ)
    (mintCnt : Addr → Option ℕ) (validators : List Addr)
    (candidates : List Addr) : Except DposErr (List Addr) :=
  if validators.length = 0 then .error .noValidatorToKickout
  else
    let need := needKickoutValidators cfg timeStamp mintCnt validators
    if need.length = 0 then .ok candidates
    else
      let sorted := sortKickout need
      let candidateCount := min candidates.length (need.length + cfg.safeSize)
      .ok (evictLoop cfg.safeSize sorted candidates candidateCount).1

/-- Signed 64-bit wrap-around (Go `int64` addition overflows modulo 2^64). -/
def int64Wrap (n : ℤ) : ℤ := (n + 2 ^ 63) % 2 ^ 64 - 2 ^ 63

/-- Shuffle seed of `tryElect`:
`int64(binary.LittleEndian.Uint32(crypto.Keccak512(parent.Hash().Bytes()))) + i`.
`low32` stands for the little-endian low 32-bit word of the Keccak-512
digest of the parent hash (the hash itself is external to this file), and
`i` is the epoch loop index. -/
def shuffleSeed (low32 : ℕ) (i : ℤ) : ℤ := int64Wrap ((low32 : ℤ) + i)

/-- In-place swap `candidates[i], candidates[j] = candidates[j], candidates[i]`.
Go would panic on an out-of-range index; in the shuffle loop `j ≤ i < len`
always holds, and the model leaves the list unchanged in the impossible
out-of-range case. -/
def listSwap {α : Type} (l : List α) (i j : ℕ) : List α :=
  if h : i < l.length ∧ j < l.length then
    (l.set i (l.get ⟨j, h.2⟩)).set j (l.get ⟨i, h.1⟩)
  else l

/-- Back-to-front shuffle loop of `tryElect`: for `v` from `len-1` down
to `1`, draw `j := r.Int31n(int32(v+1))` — modelled as `rng k (v+1)`, the
`k`-th draw of the seeded generator with exclusive bound `v+1` — and swap
positions `v` and `j`. -/
def shuffleLoop {α : Type} (rng : ℕ → ℕ → ℕ) : ℕ → ℕ → List α → List α
  | 0, _, l => l
  | v + 1, k, l => shuffleLoop rng v (k + 1) (listSwap l (v + 1) (rng k (v + 2)))

/-- The full shuffle of the truncated candidate list. -/
def shuffleCandidates {α : Type} (rng : ℕ → ℕ → ℕ) (l : List α) : List α :=
  shuffleLoop rng (l.length - 1) 0 l

/-- Truncation step of `tryElect`: keep only the top `maxValidatorSize`
entries when there are more. -/
def truncateCandidates (maxValidatorSize : ℕ) (l : List sortableAddress) :
    List sortableAddress :=
  if l.length > maxValidatorSize then l.take maxValidatorSize else l

/-- Selection pipeline of one `tryElect` iteration after the tally: build
`sortableAddress` entries from the vote map, sort, truncate, shuffle with
the seeded generator, and extract the addresses in order.  `rng` is the
draw stream of `rand.New(rand.NewSource(seed))`, which is a fixed function
of the seed. -/
def electValidators (maxValidatorSize : ℕ) (rng : ℕ → ℕ → ℕ)
    (votes : List (Addr × ℕ)) : List Addr :=
  let candidates := votes.map (fun p => sortableAddress.mk p.1 p.2)
  let truncated := truncateCandidates maxValidatorSize (sortCandidates candidates)
  (shuffleCandidates rng truncated).map sortableAddress.address

/-- The mutable chain state one `tryElect` iteration operates on: the
candidate index, delegate index and ledger balances (read by the tally),
the previous epoch's mint counts (read by the eviction) and the persisted
validator set (replaced on success). -/
structure ChainState where
  candidates : List Addr
  delegations : Addr → List Addr
  balance : Addr → ℕ
  mintCnt : Addr → Option ℕ
  validators : List Addr

/-- Eviction step at the top of a `tryElect` iteration: performed only when
the previous epoch is not genesis-adjacent and a mint-count record exists
under the previous epoch's prefix (`doKickout`).  A failure aborts the
iteration; a success replaces the candidate index. -/
def kickStep (cfg : Config) (timeStamp : ℤ) (doKickout : Bool)
    (st : ChainState) : ChainState × Option DposErr :=
  if doKickout then
    match kickoutValidator cfg timeStamp st.mintCnt st.validators
        st.candidates with
    | .error e => (st, some e)
    | .ok cands => ({ st with candidates := cands }, none)
  else (st, none)

/-- One epoch-boundary iteration of the loop in `tryElect`: eviction, tally,
too-few-candidates check, then sort/truncate/shuffle and replacement of the
validator set.  `SetValidators` runs only after every error check, so a
failing iteration returns the error with the validator set untouched (the
eviction step may already have changed the candidate index). -/
def tryElectIteration (cfg : Config) (timeStamp : ℤ)
    (randSource : ℤ → ℕ → ℕ → ℕ) (low32 : ℕ) (i : ℤ) (doKickout : Bool)
    (st : ChainState) : ChainState × Option DposErr :=
  match kickStep cfg timeStamp doKickout st with
  | (st1, some e) => (st1, some e)
  | (st1, none) =>
    match countVotes st1.candidates st1.delegations st1.balance with
    | .error e => (st1, some e)
    | .ok votes =>
      if votes.length < cfg.safeSize then (st1, some .tooFewCandidates)
      else
        let newValidators := electValidators cfg.maxValidatorSize
          (randSource (shuffleSeed low32 i)) votes
        ({ st1 with validators := newValidators }, none)

/-- Helper: for a slot-aligned non-negative timestamp and a non-empty
validator list, the computed index is non-negative and below the list
length. -/
theorem lookup_idx_bounds (ei bi : ℤ) (hei : 0 < ei) (hbi : 0 < bi)
    (validators : List Addr) (hv : validators ≠ []) (now : ℤ) (hnow : 0 ≤ now) :
    0 ≤ ((now.tmod ei).tdiv bi).tmod (validators.length : ℤ)
      ∧ ((now.tmod ei).tdiv bi).tmod (validators.length : ℤ)
          < (validators.length : ℤ) := by
  have hlen : 0 < validators.length := List.length_pos.mpr hv
  have h0 : (0:ℤ) ≤ now.tmod ei := Int.tmod_nonneg _ hnow
  have h1 : (0:ℤ) ≤ (now.tmod ei).tdiv bi := Int.tdiv_nonneg h0 (le_of_lt hbi)
  have h2 : (0:ℤ) ≤ (validators.length : ℤ) := by exact_mod_cast Nat.zero_le _
  constructor
  · exact Int.tmod_nonneg _ h1
  · rw [Int.tmod_eq_emod h1 h2]
    exact Int.emod_lt_of_pos _ (by exact_mod_cast hlen)

/-- C5 (confirmed): with `epochInterval = 86400`, `blockInterval = 10` and a
non-negative timestamp, `lookupValidator` fails with the invalid-mint-time
error iff `(now % 86400) % 10 ≠ 0`; on an aligned timestamp it fails with
the lookup error iff the validator list is empty, and otherwise returns
`validators[((now % 86400) / 10) % size]`. -/
theorem lookupValidator_turn_locator (now : ℤ) (hnow : 0 ≤ now)
    (validators : List Addr) :
    (lookupValidator 86400 10 validators now = .error .invalidMintTime
        ↔ (now.tmod 86400).tmod 10 ≠ 0)
    ∧ ((now.tmod 86400).tmod 10 = 0 → validators = [] →
        lookupValidator 86400 10 validators now = .error .lookupFailed)
    ∧ ((now.tmod 86400).tmod 10 = 0 → validators ≠ [] →
        lookupValidator 86400 10 validators now =
          .ok (validators.getD
            ((((now.tmod 86400).tdiv 10).tmod (validators.length : ℤ)).toNat)
            0)) := by
  refine ⟨?_, ?_, ?_⟩
  · by_cases ha : (now.tmod 86400).tmod 10 = 0
    · simp only [lookupValidator, ha, ne_eq, not_true_eq_false, if_false,
        if_true, not_false_eq_true]
      refine iff_of_false ?_ (by simp [ha])
      split_ifs <;> simp
    · simp [lookupValidator, ha]
  · intro ha hv
    simp [lookupValidator, ha, hv]
  · intro ha hv
    have hb := lookup_idx_bounds 86400 10 (by norm_num) (by norm_num)
      validators hv now hnow
    have hlt : ((((now.tmod 86400).tdiv 10).tmod
        (validators.length : ℤ))).toNat < validators.length := by
      omega
    simp only [lookupValidator, ha, ne_eq, not_true_eq_false, if_false,
      List.length_eq_zero, hv]
    rw [dif_pos ⟨hb.1, hlt⟩]
    rw [List.getD_eq_getElem _ _ hlt]
    rfl

/-- Witness for C5 at `now = 30`, three validators: hypotheses hold and the
lookup returns the validator at slot `3 % 3 = 0`. -/
theorem lookupValidator_turn_locator_witness :
    (0:ℤ) ≤ 30 ∧
    ((lookupValidator 86400 10 [10, 11, 12] 30 = .error .invalidMintTime
        ↔ ((30:ℤ).tmod 86400).tmod 10 ≠ 0)
    ∧ (((30:ℤ).tmod 86400).tmod 10 = 0 → [10, 11, 12] = ([] : List Addr) →
        lookupValidator 86400 10 [10, 11, 12] 30 = .error .lookupFailed)
    ∧ (((30:ℤ).tmod 86400).tmod 10 = 0 → [10, 11, 12] ≠ ([] : List Addr) →
        lookupValidator 86400 10 [10, 11, 12] 30 =
          .ok (([10, 11, 12] : List Addr).getD
            (((((30:ℤ).tmod 86400).tdiv 10).tmod
              (([10, 11, 12] : List Addr).length : ℤ)).toNat) 0))) :=
  ⟨by norm_num, lookupValidator_turn_locator 30 (by norm_num) [10, 11, 12]⟩

/-- C10 (confirmed): for positive configuration constants, a non-negative
slot-aligned timestamp and a non-empty validator set, the slot index lies in
`[0, size)` and `lookupValidator` succeeds (no out-of-range indexing); the
guarantee fails for negative timestamps, witnessed by `now = -10` where the
index evaluates to `-1` and the code would panic. -/
theorem lookupValidator_index_safety (ei bi : ℤ) (hei : 0 < ei)
    (hbi : 0 < bi) (validators : List Addr) (hv : validators ≠ [])
    (now : ℤ) (hnow : 0 ≤ now) (halign : ((now.tmod ei).tmod bi) = 0) :
    (0 ≤ ((now.tmod ei).tdiv bi).tmod (validators.length : ℤ)
      ∧ ((now.tmod ei).tdiv bi).tmod (validators.length : ℤ)
          < (validators.length : ℤ))
    ∧ (∃ a, lookupValidator ei bi validators now = .ok a)
    ∧ lookupValidator 86400 10 [1, 2, 3] (-10)
        = .error .indexOutOfRange := by
  have hb := lookup_idx_bounds ei bi hei hbi validators hv now hnow
  refine ⟨hb, ?_, by rfl⟩
  have hlt : ((((now.tmod ei).tdiv bi).tmod
      (validators.length : ℤ))).toNat < validators.length := by omega
  refine ⟨validators.get ⟨_, hlt⟩, ?_⟩
  simp only [lookupValidator, halign, ne_eq, not_true_eq_false, if_false]
  rw [if_neg (fun hz => hv (List.length_eq_zero.mp hz))]
  rw [dif_pos ⟨hb.1, hlt⟩]

/-- Witness for C10: concrete instantiation at `ei = 86400`, `bi = 10`,
three validators, `now = 20`. -/
theorem lookupValidator_index_safety_witness :
    (0:ℤ) < 86400 ∧ (0:ℤ) < 10 ∧ ([1, 2, 3] : List Addr) ≠ []
    ∧ (0:ℤ) ≤ 20 ∧ (((20:ℤ).tmod 86400).tmod 10) = 0
    ∧ ((0 ≤ (((20:ℤ).tmod 86400).tdiv 10).tmod
          ((([1, 2, 3] : List Addr).length : ℤ))
        ∧ (((20:ℤ).tmod 86400).tdiv 10).tmod
            ((([1, 2, 3] : List Addr).length : ℤ))
            < (([1, 2, 3] : List Addr).length : ℤ))
      ∧ (∃ a, lookupValidator 86400 10 [1, 2, 3] 20 = .ok a)
      ∧ lookupValidator 86400 10 [1, 2, 3] (-10)
          = .error .indexOutOfRange) :=
  ⟨by norm_num, by norm_num, by simp, by norm_num, by decide,
    lookupValidator_index_safety 86400 10 (by norm_num) (by norm_num)
      [1, 2, 3] (by simp) 20 (by norm_num) (by decide)⟩

/-- Characterization of the `Less` comparator: `Less a b` holds iff `a` has
strictly larger weight, or equal weight and strictly smaller address string. -/
theorem Less_iff (a b : sortableAddress) :
    a.Less b = true ↔
      b.weight < a.weight ∨ (a.weight = b.weight ∧ a.address < b.address) := by
  unfold sortableAddress.Less
  split_ifs with h1 h2
  · constructor
    · intro h; cases h
    · rintro (h | ⟨heq, _⟩) <;> omega
  · constructor
    · intro _; exact Or.inl h2
    · intro _; rfl
  · have heq : a.weight = b.weight := by omega
    simp only [decide_eq_true_eq]
    constructor
    · intro h; exact Or.inr ⟨heq, h⟩
    · rintro (h | ⟨_, h⟩)
      · omega
      · exact h

/-- The comparator never relates an element to itself. -/
theorem Less_irrefl (a : sortableAddress) : ¬ a.Less a = true := by
  rw [Less_iff]
  rintro (h | ⟨_, h⟩)
  · omega
  · exact lt_irrefl _ h

/-- The comparator is transitive. -/
theorem Less_trans {a b c : sortableAddress} (hab : a.Less b = true)
    (hbc : b.Less c = true) : a.Less c = true := by
  rw [Less_iff] at *
  rcases hab with h | ⟨h1, h2⟩ <;> rcases hbc with g | ⟨g1, g2⟩
  · exact Or.inl (by omega)
  · exact Or.inl (by omega)
  · exact Or.inl (by omega)
  · exact Or.inr ⟨by omega, lt_trans h2 g2⟩

/-- The comparator is asymmetric. -/
theorem Less_asymm {a b : sortableAddress} (hab : a.Less b = true)
    (hba : b.Less a = true) : False := by
  rw [Less_iff] at *
  rcases hab with h | ⟨h1, h2⟩ <;> rcases hba with g | ⟨g1, g2⟩
  · omega
  · omega
  · omega
  · exact lt_asymm h2 g2

/-- On entries with distinct addresses the comparator is total. -/
theorem Less_connected {a b : sortableAddress} (h : a.address ≠ b.address) :
    a.Less b = true ∨ b.Less a = true := by
  rw [Less_iff, Less_iff]
  rcases lt_trichotomy a.weight b.weight with hw | hw | hw
  · exact Or.inr (Or.inl hw)
  · rcases h.lt_or_lt with hs | hs
    · exact Or.inl (Or.inr ⟨hw, hs⟩)
    · exact Or.inr (Or.inr ⟨hw.symm, hs⟩)
  · exact Or.inl (Or.inl hw)

/-- Characterization of `sortLeR`: descending weight with ties broken by
ascending address string. -/
theorem sortLeR_iff (a b : sortableAddress) :
    sortLeR a b ↔
      b.weight ≤ a.weight ∧ (b.weight = a.weight → a.address ≤ b.address) := by
  simp only [sortLeR, sortLe, Bool.not_eq_true', Bool.eq_false_iff, ne_eq,
    Less_iff, not_or, not_and, not_lt]

/-- Characterization of `revLeR`: ascending weight with ties broken by
descending address string. -/
theorem revLeR_iff (a b : sortableAddress) :
    revLeR a b ↔
      a.weight ≤ b.weight ∧ (a.weight = b.weight → b.address ≤ a.address) := by
  simp only [revLeR, revLe, Bool.not_eq_true', Bool.eq_false_iff, ne_eq,
    Less_iff, not_or, not_and, not_lt]

instance : IsTrans sortableAddress sortLeR :=
  ⟨by
    intro a b c hab hbc
    rw [sortLeR_iff] at *
    exact ⟨le_trans hbc.1 hab.1,
      fun he => le_trans (hab.2 (by omega)) (hbc.2 (by omega))⟩⟩

instance : IsTotal sortableAddress sortLeR :=
  ⟨by
    intro a b
    rw [sortLeR_iff, sortLeR_iff]
    rcases lt_trichotomy a.weight b.weight with hw | hw | hw
    · exact Or.inr ⟨le_of_lt hw, fun he => absurd he (by omega)⟩
    · rcases le_total a.address b.address with hs | hs
      · exact Or.inl ⟨le_of_eq hw.symm, fun _ => hs⟩
      · exact Or.inr ⟨le_of_eq hw, fun _ => hs⟩
    · exact Or.inl ⟨le_of_lt hw, fun he => absurd he (by omega)⟩⟩

instance : IsAntisymm sortableAddress sortLeR :=
  ⟨by
    intro a b hab hba
    rw [sortLeR_iff] at hab hba
    have hw : a.weight = b.weight := le_antisymm hba.1 hab.1
    have hs : a.address = b.address :=
      le_antisymm (hab.2 hw.symm) (hba.2 hw)
    cases a; cases b; simp_all⟩

instance : IsTrans sortableAddress revLeR :=
  ⟨by
    intro a b c hab hbc
    rw [revLeR_iff] at *
    exact ⟨le_trans hab.1 hbc.1,
      fun he => le_trans (hbc.2 (by omega)) (hab.2 (by omega))⟩⟩

instance : IsTotal sortableAddress revLeR :=
  ⟨by
    intro a b
    rw [revLeR_iff, revLeR_iff]
    rcases lt_trichotomy a.weight b.weight with hw | hw | hw
    · exact Or.inl ⟨le_of_lt hw, fun he => absurd he (by omega)⟩
    · rcases le_total a.address b.address with hs | hs
      · exact Or.inr ⟨le_of_eq hw.symm, fun _ => hs⟩
      · exact Or.inl ⟨le_of_eq hw, fun _ => hs⟩
    · exact Or.inr ⟨le_of_lt hw, fun he => absurd he (by omega)⟩⟩

instance : IsAntisymm sortableAddress revLeR :=
  ⟨by
    intro a b hab hba
    rw [revLeR_iff] at hab hba
    have hw : a.weight = b.weight := le_antisymm hab.1 hba.1
    have hs : a.address = b.address :=
      le_antisymm (hba.2 hw.symm) (hab.2 hw)
    cases a; cases b; simp_all⟩

/-- C6 (confirmed): `Less` is a strict total order on entries with distinct
addresses (irreflexive, transitive, asymmetric, connected); the Selector's
sort output is `Pairwise sortLe` (descending weight, ascending address) and
a permutation of its input; and the sorted permutation is unique, so any two
runs of the sort on the same input produce identical output. -/
theorem selector_sort_strict_total_order :
    (∀ a : sortableAddress, ¬ a.Less a = true)
    ∧ (∀ a b c : sortableAddress,
        a.Less b = true → b.Less c = true → a.Less c = true)
    ∧ (∀ a b : sortableAddress, a.Less b = true → ¬ b.Less a = true)
    ∧ (∀ a b : sortableAddress, a.address ≠ b.address →
        a.Less b = true ∨ b.Less a = true)
    ∧ (∀ l : List sortableAddress,
        List.Sorted sortLeR (sortCandidates l) ∧ (sortCandidates l).Perm l)
    ∧ (∀ l l₁ l₂ : List sortableAddress,
        l₁.Perm l → List.Sorted sortLeR l₁ →
        l₂.Perm l → List.Sorted sortLeR l₂ →
        l₁ = l₂) := by
  refine ⟨Less_irrefl, fun a b c => Less_trans,
    fun a b hab hba => Less_asymm hab hba,
    fun a b => Less_connected, ?_, ?_⟩
  · intro l
    exact ⟨List.sorted_insertionSort sortLeR l, List.perm_insertionSort sortLeR l⟩
  · intro l l₁ l₂ h₁ hs₁ h₂ hs₂
    exact List.eq_of_perm_of_sorted (h₁.trans h₂.symm) hs₁ hs₂

/-- Witness for C6: the uniqueness conjunct applied at a concrete list pins
down the sorted output (address 1 with weight 5 before address 2 with
weight 3). -/
theorem selector_sort_strict_total_order_witness :
    sortCandidates [⟨2, 3⟩, ⟨1, 5⟩] =
      [⟨1, 5⟩, ⟨2, 3⟩] :=
  selector_sort_strict_total_order.2.2.2.2.2
    [⟨2, 3⟩, ⟨1, 5⟩] (sortCandidates [⟨2, 3⟩, ⟨1, 5⟩])
    [⟨1, 5⟩, ⟨2, 3⟩] (by decide) (by decide) (by decide) (by decide)

/-- C3 counterexample: `kickoutValidator` sorts with
`sort.Sort(sort.Reverse(...))`, which orders by ASCENDING mint count with
ties broken by DESCENDING address.  For A(cnt=5), B(cnt=2), C(cnt=5) —
modelled as addresses 1, 2, 3 with A < C — the processing order is
[B, C, A]: B is processed FIRST, not last, refuting the claimed orders
[A, C, then B last] and [C, A, then B last]. -/
theorem kickout_order_counterexample :
    sortKickout [⟨1, 5⟩, ⟨2, 2⟩, ⟨3, 5⟩] =
        [⟨2, 2⟩, ⟨3, 5⟩, ⟨1, 5⟩]
    ∧ sortKickout [⟨1, 5⟩, ⟨2, 2⟩, ⟨3, 5⟩] ≠
        [⟨1, 5⟩, ⟨3, 5⟩, ⟨2, 2⟩]
    ∧ sortKickout [⟨1, 5⟩, ⟨2, 2⟩, ⟨3, 5⟩] ≠
        [⟨3, 5⟩, ⟨1, 5⟩, ⟨2, 2⟩] := by
  refine ⟨by decide, by decide, by decide⟩

/-- C3 (amended): the eviction pass processes inactive validators in
ASCENDING mint-count order, ties broken by DESCENDING address — the worst
offenders are evicted first.  The processing order is `Pairwise revLe` and a
permutation of the collected list; `revLe x y` holds iff `x` has a smaller
count, or an equal count and an address that is not smaller; on the example
A(5), B(2), C(5) the order is [B, C, A]. -/
theorem kickout_order_amended (l : List sortableAddress) :
    List.Sorted revLeR (sortKickout l)
    ∧ (sortKickout l).Perm l
    ∧ (∀ x y : sortableAddress, revLeR x y ↔
        (x.weight ≤ y.weight ∧ (x.weight = y.weight → y.address ≤ x.address)))
    ∧ sortKickout [⟨1, 5⟩, ⟨2, 2⟩, ⟨3, 5⟩] =
        [⟨2, 2⟩, ⟨3, 5⟩, ⟨1, 5⟩] :=
  ⟨List.sorted_insertionSort revLeR l, List.perm_insertionSort revLeR l,
    revLeR_iff, by decide⟩

/-- Reading an absent key of the vote map yields `none`. -/
theorem mapGet_eq_none (vs : List (Addr × ℕ)) (c : Addr)
    (h : c ∉ vs.map Prod.fst) : mapGet vs c = none := by
  induction vs with
  | nil => rfl
  | cons p rest ih =>
      obtain ⟨a, x⟩ := p
      have h1 : a ≠ c := fun he => h (by simp [he])
      have h2 : c ∉ rest.map Prod.fst := fun hm => h (by simp [hm])
      simp [mapGet, h1, ih h2]

/-- Writing an absent key appends the binding. -/
theorem mapSet_not_mem (vs : List (Addr × ℕ)) (c : Addr) (w : ℕ)
    (h : c ∉ vs.map Prod.fst) : mapSet vs c w = vs ++ [(c, w)] := by
  induction vs with
  | nil => rfl
  | cons p rest ih =>
      obtain ⟨a, x⟩ := p
      have h1 : a ≠ c := fun he => h (by simp [he])
      have h2 : c ∉ rest.map Prod.fst := fun hm => h (by simp [hm])
      simp [mapSet, h1, ih h2]

/-- Overwriting the key that sits at the end of the map replaces the
binding in place. -/
theorem mapSet_snoc (vs : List (Addr × ℕ)) (c : Addr) (s w : ℕ)
    (h : c ∉ vs.map Prod.fst) :
    mapSet (vs ++ [(c, s)]) c w = vs ++ [(c, w)] := by
  induction vs with
  | nil => simp [mapSet]
  | cons p rest ih =>
      obtain ⟨a, x⟩ := p
      have h1 : a ≠ c := fun he => h (by simp [he])
      have h2 : c ∉ rest.map Prod.fst := fun hm => h (by simp [hm])
      simp [mapSet, h1, ih h2]

/-- Reading the key that sits at the end of the map. -/
theorem mapGet_snoc (vs : List (Addr × ℕ)) (c : Addr) (s : ℕ)
    (h : c ∉ vs.map Prod.fst) :
    mapGet (vs ++ [(c, s)]) c = some s := by
  induction vs with
  | nil => simp [mapGet]
  | cons p rest ih =>
      obtain ⟨a, x⟩ := p
      have h1 : a ≠ c := fun he => h (by simp [he])
      have h2 : c ∉ rest.map Prod.fst := fun hm => h (by simp [hm])
      simp [mapGet, h1, ih h2]

/-- The delegator loop accumulates the delegators' balances onto the
candidate's running score. -/
theorem tallyDelegators_snoc (balance : Addr → ℕ) (c : Addr)
    (vs : List (Addr × ℕ)) (h : c ∉ vs.map Prod.fst) :
    ∀ (ds : List Addr) (s : ℕ),
      tallyDelegators balance c ds (vs ++ [(c, s)])
        = vs ++ [(c, s + (ds.map balance).sum)] := by
  intro ds
  induction ds with
  | nil => intro s; simp [tallyDelegators]
  | cons d ds ih =>
      intro s
      simp only [tallyDelegators]
      rw [mapGet_snoc vs c s h]
      simp only [Option.getD_some]
      rw [mapSet_snoc vs c s (s + balance d) h, ih (s + balance d)]
      simp [Nat.add_assoc]

/-- One candidate step appends the candidate with the exact sum of its
delegators' balances (zero when it has none). -/
theorem countVotesStep_snoc (delegations : Addr → List Addr)
    (balance : Addr → ℕ) (vs : List (Addr × ℕ)) (c : Addr)
    (h : c ∉ vs.map Prod.fst) :
    countVotesStep delegations balance vs c
      = vs ++ [(c, ((delegations c).map balance).sum)] := by
  rw [countVotesStep]
  rcases hd : delegations c with _ | ⟨d, ds⟩
  · rw [mapSet_not_mem vs c 0 h]; simp
  · simp only [tallyDelegators]
    rw [mapGet_eq_none vs c h]
    simp only [Option.getD_none]
    rw [mapSet_not_mem vs c (0 + balance d) h,
      tallyDelegators_snoc balance c vs h ds (0 + balance d)]
    simp [Nat.add_assoc]

/-- The candidate fold produces one binding per candidate, in index order,
each carrying the sum of that candidate's delegator balances. -/
theorem countVotes_foldl (delegations : Addr → List Addr)
    (balance : Addr → ℕ) :
    ∀ (cands : List Addr) (vs : List (Addr × ℕ)), cands.Nodup →
      (∀ c ∈ cands, c ∉ vs.map Prod.fst) →
      cands.foldl (countVotesStep delegations balance) vs
        = vs ++ cands.map (fun c => (c, ((delegations c).map balance).sum)) := by
  intro cands
  induction cands with
  | nil => intro vs _ _; simp
  | cons c cs ih =>
      intro vs hnd hmem
      rw [List.foldl_cons,
        countVotesStep_snoc delegations balance vs c (hmem c (by simp))]
      rw [ih (vs ++ [(c, ((delegations c).map balance).sum)]) hnd.of_cons]
      · simp
      · intro c' hc'
        have h1 : c' ∉ vs.map Prod.fst := hmem c' (by simp [hc'])
        have h2 : c' ≠ c := by
          intro he
          exact (List.nodup_cons.mp hnd).1 (he ▸ hc')
        simp [h1, h2]

/-- Reading a key of the canonical tally map. -/
theorem mapGet_map_self (f : Addr → ℕ) :
    ∀ (cands : List Addr), cands.Nodup → ∀ c ∈ cands,
      mapGet (cands.map (fun c => (c, f c))) c = some (f c) := by
  intro cands
  induction cands with
  | nil => intro _ c hc; cases hc
  | cons a tl ih =>
      intro hnd c hc
      rcases List.mem_cons.mp hc with he | hm
      · subst he; simp [mapGet]
      · have h1 : a ≠ c := by
          intro he
          exact (List.nodup_cons.mp hnd).1 (he ▸ hm)
        simp only [List.map_cons, mapGet, h1, if_false]
        exact ih (List.nodup_cons.mp hnd).2 c hm

/-- C1 (confirmed): on a duplicate-free candidate index, `countVotes` fails
with the no-candidates error iff the index is empty; otherwise it returns a
map whose keys are exactly the candidates, each bound to the exact unbounded
sum of its delegators' current balances, and in particular to zero when it
has no delegators. -/
theorem countVotes_tally_correct (cands : List Addr)
    (delegations : Addr → List Addr) (balance : Addr → ℕ)
    (hnd : cands.Nodup) :
    (countVotes cands delegations balance = .error .noCandidates ↔ cands = [])
    ∧ (cands ≠ [] →
        countVotes cands delegations balance =
          .ok (cands.map (fun c => (c, ((delegations c).map balance).sum))))
    ∧ (∀ votes, countVotes cands delegations balance = .ok votes →
        votes.map Prod.fst = cands
        ∧ (∀ c ∈ cands,
            mapGet votes c = some (((delegations c).map balance).sum))
        ∧ (∀ c ∈ cands, delegations c = [] → mapGet votes c = some 0)) := by
  have hok : cands ≠ [] →
      countVotes cands delegations balance =
        .ok (cands.map (fun c => (c, ((delegations c).map balance).sum))) := by
    intro hne
    rw [countVotes, if_neg (by simp [hne])]
    rw [countVotes_foldl delegations balance cands [] hnd (by simp)]
    simp
  refine ⟨?_, hok, ?_⟩
  · constructor
    · intro h
      by_contra hne
      rw [hok hne] at h
      cases h
    · intro h; subst h; rfl
  · intro votes hv
    have hne : cands ≠ [] := by
      intro he
      subst he
      cases hv
    rw [hok hne] at hv
    have hv' := Except.ok.inj hv
    subst hv'
    have hid : (Prod.fst ∘ fun c : Addr =>
        (c, (List.map balance (delegations c)).sum)) = fun c : Addr => c := rfl
    refine ⟨by rw [List.map_map, hid]; simp, ?_, ?_⟩
    · exact mapGet_map_self _ cands hnd
    · intro c hc hd
      have := mapGet_map_self (fun c => ((delegations c).map balance).sum)
        cands hnd c hc
      simpa [hd] using this

/-- Witness for C1: two candidates, candidate 1 with delegators of balances
5 and 6, candidate 2 with none. -/
theorem countVotes_tally_correct_witness :
    ([1, 2] : List Addr).Nodup ∧
    ((countVotes [1, 2] (fun c => if c = 1 then [5, 6] else []) (fun d => d)
        = .error .noCandidates ↔ ([1, 2] : List Addr) = [])
    ∧ (([1, 2] : List Addr) ≠ [] →
        countVotes [1, 2] (fun c => if c = 1 then [5, 6] else []) (fun d => d) =
          .ok (([1, 2] : List Addr).map (fun c =>
            (c, (((fun c => if c = 1 then [5, 6] else []) c).map
              (fun d => d)).sum))))
    ∧ (∀ votes,
        countVotes [1, 2] (fun c => if c = 1 then [5, 6] else []) (fun d => d)
          = .ok votes →
        votes.map Prod.fst = [1, 2]
        ∧ (∀ c ∈ ([1, 2] : List Addr), mapGet votes c =
            some ((((fun c => if c = 1 then [5, 6] else []) c).map
              (fun d => d)).sum))
        ∧ (∀ c ∈ ([1, 2] : List Addr),
            (fun c => if c = 1 then [5, 6] else []) c = [] →
            mapGet votes c = some 0))) :=
  ⟨by decide,
    countVotes_tally_correct [1, 2] (fun c => if c = 1 then [5, 6] else [])
      (fun d => d) (by decide)⟩

/-- C7 (confirmed): a validator is collected for eviction iff it is a
current validator whose mint count for the evaluated epoch (zero when the
record is missing) is strictly below
`epochDuration / blockInterval / maxValidatorSize / 2`, where
`epochDuration` is `epochInterval` unless the span since the first block is
shorter; every collected entry carries exactly that validator's count. -/
theorem kickout_inactive_classification (cfg : Config) (timeStamp : ℤ)
    (mintCnt : Addr → Option ℕ) (validators : List Addr) (v : Addr) :
    (sortableAddress.mk v ((mintCnt v).getD 0)
        ∈ needKickoutValidators cfg timeStamp mintCnt validators
      ↔ v ∈ validators ∧
        (((mintCnt v).getD 0 : ℤ) <
          (((if timeStamp - cfg.timeOfFirstBlock < cfg.epochInterval then
                timeStamp - cfg.timeOfFirstBlock
              else cfg.epochInterval).tdiv cfg.blockInterval).tdiv
            (cfg.maxValidatorSize : ℤ)).tdiv 2))
    ∧ (∀ x ∈ needKickoutValidators cfg timeStamp mintCnt validators,
        x.weight = (mintCnt x.address).getD 0 ∧ x.address ∈ validators) := by
  constructor
  · constructor
    · intro h
      rcases List.mem_filterMap.mp h with ⟨a, ha, hf⟩
      by_cases hc : ((mintCnt a).getD 0 : ℤ) < kickoutThreshold cfg timeStamp
      · rw [if_pos hc] at hf
        have h1 := Option.some.inj hf
        have h2 : a = v := congrArg sortableAddress.address h1
        subst h2
        exact ⟨ha, by simpa [kickoutThreshold, epochDuration] using hc⟩
      · rw [if_neg hc] at hf; cases hf
    · rintro ⟨hv, hc⟩
      refine List.mem_filterMap.mpr ⟨v, hv, ?_⟩
      rw [if_pos (by simpa [kickoutThreshold, epochDuration] using hc)]
  · intro x hx
    rcases List.mem_filterMap.mp hx with ⟨a, ha, hf⟩
    by_cases hc : ((mintCnt a).getD 0 : ℤ) < kickoutThreshold cfg timeStamp
    · rw [if_pos hc] at hf
      have h1 := Option.some.inj hf
      subst h1
      exact ⟨rfl, ha⟩
    · rw [if_neg hc] at hf; cases hf

/-- Witness for C7: for a single validator with no mint record, threshold
205, the classification holds concretely. -/
theorem kickout_inactive_classification_witness :
    (sortableAddress.mk 7 (((fun _ : Addr => (none : Option ℕ)) 7).getD 0)
        ∈ needKickoutValidators ⟨86400, 10, 21, 15, 0⟩ 86400
            (fun _ => none) [7]
      ↔ (7 : Addr) ∈ ([7] : List Addr) ∧
        ((((fun _ : Addr => (none : Option ℕ)) 7).getD 0 : ℤ) <
          (((if (86400 : ℤ) - (Config.mk 86400 10 21 15 0).timeOfFirstBlock
                < (Config.mk 86400 10 21 15 0).epochInterval then
                (86400 : ℤ) - (Config.mk 86400 10 21 15 0).timeOfFirstBlock
              else (Config.mk 86400 10 21 15 0).epochInterval).tdiv
                (Config.mk 86400 10 21 15 0).blockInterval).tdiv
            ((Config.mk 86400 10 21 15 0).maxValidatorSize : ℤ)).tdiv 2))
    ∧ (∀ x ∈ needKickoutValidators ⟨86400, 10, 21, 15, 0⟩ 86400
          (fun _ => none) [7],
        x.weight = ((fun _ : Addr => (none : Option ℕ)) x.address).getD 0
          ∧ x.address ∈ ([7] : List Addr)) :=
  kickout_inactive_classification ⟨86400, 10, 21, 15, 0⟩ 86400
    (fun _ => none) [7] 7

/-- The eviction loop never drops the tracked count below the floor: the
resulting candidate list keeps at least `min (initial length) safeSize`
entries, and the resulting tracked count stays at least
`min (initial count) safeSize`. -/
theorem evictLoop_floor (safeSize : ℕ) :
    ∀ (l : List sortableAddress) (cands : List Addr) (cnt : ℕ),
      cnt ≤ cands.length →
      min cands.length safeSize ≤ (evictLoop safeSize l cands cnt).1.length
        ∧ min cnt safeSize ≤ (evictLoop safeSize l cands cnt).2 := by
  intro l
  induction l with
  | nil => intro cands cnt _; simp only [evictLoop]; omega
  | cons v rest ih =>
      intro cands cnt hcnt
      by_cases h : cnt ≤ safeSize
      · simp only [evictLoop, if_pos h]
        omega
      · simp only [evictLoop, if_neg h, kickoutCandidate]
        have hlen : cands.length - 1 ≤ (cands.erase v.address).length ∧
            (cands.erase v.address).length ≤ cands.length := by
          by_cases hm : v.address ∈ cands
          · rw [List.length_erase_of_mem hm]; omega
          · rw [List.erase_of_not_mem hm]; omega
        obtain ⟨ih1, ih2⟩ := ih (cands.erase v.address) (cnt - 1) (by omega)
        omega

/-- C4 counterexample: with `safeSize = 15`, a single candidate and a single
inactive validator, `kickoutValidator` succeeds without evicting and leaves
the pool at 1 < 15 candidates — a successful run CAN leave fewer than
`safeSize` candidates when the pool already started below the floor. -/
theorem kickout_safe_floor_counterexample :
    kickoutValidator ⟨86400, 10, 21, 15, 0⟩ 86400 (fun _ => none) [7] [9]
        = .ok [9]
    ∧ ([9] : List Addr).length < (Config.mk 86400 10 21 15 0).safeSize :=
  ⟨rfl, by norm_num⟩

/-- C4 (amended): a successful `kickoutValidator` run leaves at least
`min (initial candidate count) safeSize` candidates — it never evicts
through the floor, though a pool that already started below `safeSize`
stays as it is; and the eviction loop performs a removal only while the
tracked count exceeds `safeSize`, so the count never ends below
`min (initial count) safeSize`. -/
theorem kickout_safe_floor_amended (cfg : Config) (timeStamp : ℤ)
    (mintCnt : Addr → Option ℕ) (validators candidates cands' : List Addr)
    (h : kickoutValidator cfg timeStamp mintCnt validators candidates
        = .ok cands') :
    min candidates.length cfg.safeSize ≤ cands'.length
    ∧ (∀ (l : List sortableAddress) (cands : List Addr) (cnt : ℕ),
        cnt ≤ cands.length →
        min cands.length cfg.safeSize
            ≤ (evictLoop cfg.safeSize l cands cnt).1.length
          ∧ min cnt cfg.safeSize ≤ (evictLoop cfg.safeSize l cands cnt).2) := by
  refine ⟨?_, evictLoop_floor cfg.safeSize⟩
  simp only [kickoutValidator] at h
  by_cases h1 : validators.length = 0
  · rw [if_pos h1] at h; cases h
  · rw [if_neg h1] at h
    by_cases h2 :
        (needKickoutValidators cfg timeStamp mintCnt validators).length = 0
    · rw [if_pos h2] at h
      have := Except.ok.inj h
      subst this
      exact min_le_left _ _
    · rw [if_neg h2] at h
      have := Except.ok.inj h
      subst this
      exact (evictLoop_floor cfg.safeSize _ candidates _ (min_le_left _ _)).1

/-- Witness for C4's amended theorem at the counterexample input. -/
theorem kickout_safe_floor_amended_witness :
    min ([9] : List Addr).length (Config.mk 86400 10 21 15 0).safeSize
        ≤ ([9] : List Addr).length
    ∧ (∀ (l : List sortableAddress) (cands : List Addr) (cnt : ℕ),
        cnt ≤ cands.length →
        min cands.length (Config.mk 86400 10 21 15 0).safeSize
            ≤ (evictLoop (Config.mk 86400 10 21 15 0).safeSize l cands cnt).1.length
          ∧ min cnt (Config.mk 86400 10 21 15 0).safeSize
            ≤ (evictLoop (Config.mk 86400 10 21 15 0).safeSize l cands cnt).2) :=
  kickout_safe_floor_amended ⟨86400, 10, 21, 15, 0⟩ 86400 (fun _ => none)
    [7] [9] [9] rfl

/-- C2 (confirmed): the shuffle is a pure function of the candidate list and
the seed — two runs with equal parent-hash low words, equal epoch indices
and equal (sorted, truncated) candidate lists produce identical output —
and, for epoch indices in `int64` range, distinct loop indices with the
same parent hash yield distinct seeds under the wrap-around addition
`low32(keccak512(parentHash)) + i`. -/
theorem shuffle_pure_and_seeds_distinct :
    (∀ (randSource : ℤ → ℕ → ℕ → ℕ) (h₁ h₂ : ℕ) (i₁ i₂ : ℤ)
        (l₁ l₂ : List sortableAddress),
        h₁ = h₂ → i₁ = i₂ → l₁ = l₂ →
        shuffleCandidates (randSource (shuffleSeed h₁ i₁)) l₁
          = shuffleCandidates (randSource (shuffleSeed h₂ i₂)) l₂)
    ∧ (∀ (h : ℕ) (i₁ i₂ : ℤ),
        -2 ^ 63 ≤ i₁ → i₁ < 2 ^ 63 → -2 ^ 63 ≤ i₂ → i₂ < 2 ^ 63 →
        i₁ ≠ i₂ → shuffleSeed h i₁ ≠ shuffleSeed h i₂) := by
  constructor
  · intro randSource h₁ h₂ i₁ i₂ l₁ l₂ hh hi hl
    subst hh; subst hi; subst hl; rfl
  · intro h i₁ i₂ hl1 hu1 hl2 hu2 hne
    simp only [shuffleSeed, int64Wrap, ne_eq]
    intro he
    omega

/-- Witness for C2: concrete two equal runs, and distinct seeds for loop
indices 0 and 1. -/
theorem shuffle_pure_and_seeds_distinct_witness :
    shuffleCandidates ((fun _ _ _ => 0 : ℤ → ℕ → ℕ → ℕ) (shuffleSeed 5 1))
        ([⟨1, 1⟩, ⟨2, 2⟩] : List sortableAddress)
      = shuffleCandidates ((fun _ _ _ => 0 : ℤ → ℕ → ℕ → ℕ) (shuffleSeed 5 1))
        ([⟨1, 1⟩, ⟨2, 2⟩] : List sortableAddress)
    ∧ shuffleSeed 0 0 ≠ shuffleSeed 0 1 :=
  ⟨shuffle_pure_and_seeds_distinct.1 (fun _ _ _ => 0) 5 5 1 1
      ([⟨1, 1⟩, ⟨2, 2⟩] : List sortableAddress)
      ([⟨1, 1⟩, ⟨2, 2⟩] : List sortableAddress) rfl rfl rfl,
    shuffle_pure_and_seeds_distinct.2 0 0 1 (by norm_num) (by norm_num)
      (by norm_num) (by norm_num) (by norm_num)⟩

/-- A swap is a permutation. -/
theorem listSwap_perm {α : Type} [DecidableEq α] (l : List α) (i j : ℕ) :
    (listSwap l i j).Perm l := by
  by_cases h : i < l.length ∧ j < l.length
  · obtain ⟨hi, hj⟩ := h
    rw [listSwap, dif_pos ⟨hi, hj⟩]
    rw [List.perm_iff_count]
    intro x
    have hj' : j < (l.set i (l.get ⟨j, hj⟩)).length := by simp [hj]
    rw [List.count_set (l.get ⟨i, hi⟩) x _ j hj']
    rw [List.count_set (l.get ⟨j, hj⟩) x l i hi]
    have hgj : getElem (l.set i (l.get ⟨j, hj⟩)) j hj' = getElem l j hj := by
      by_cases he : i = j
      · subst he
        rw [List.getElem_set_self]
        rfl
      · exact List.getElem_set_ne he _
    rw [hgj]
    have e1 : l.get ⟨i, hi⟩ = getElem l i hi := rfl
    have e2 : l.get ⟨j, hj⟩ = getElem l j hj := rfl
    rw [e1, e2]
    simp only [beq_iff_eq]
    have hpi : (if getElem l i hi = x then 1 else 0) ≤ l.count x := by
      split
      · next hh =>
          exact List.count_pos_iff.mpr (hh ▸ List.getElem_mem hi)
      · omega
    have hpj : (if getElem l j hj = x then 1 else 0) ≤ l.count x := by
      split
      · next hh =>
          exact List.count_pos_iff.mpr (hh ▸ List.getElem_mem hj)
      · omega
    omega
  · rw [listSwap, dif_neg h]

/-- The shuffle loop is a permutation. -/
theorem shuffleLoop_perm {α : Type} [DecidableEq α] (rng : ℕ → ℕ → ℕ) :
    ∀ (v k : ℕ) (l : List α), (shuffleLoop rng v k l).Perm l := by
  intro v
  induction v with
  | zero => intro k l; exact List.Perm.refl l
  | succ v ih =>
      intro k l
      exact (ih (k + 1) _).trans (listSwap_perm l (v + 1) (rng k (v + 2)))

/-- The whole shuffle is a permutation of its input. -/
theorem shuffleCandidates_perm {α : Type} [DecidableEq α]
    (rng : ℕ → ℕ → ℕ) (l : List α) : (shuffleCandidates rng l).Perm l :=
  shuffleLoop_perm rng (l.length - 1) 0 l

/-- Truncation yields a sublist. -/
theorem truncateCandidates_sublist (m : ℕ) (l : List sortableAddress) :
    (truncateCandidates m l).Sublist l := by
  rw [truncateCandidates]
  split
  · exact List.take_sublist m l
  · exact List.Sublist.refl l

/-- Truncation caps the length at `maxValidatorSize`. -/
theorem truncateCandidates_length (m : ℕ) (l : List sortableAddress) :
    (truncateCandidates m l).length ≤ m := by
  rw [truncateCandidates]
  split
  · simp
  · next hle => omega

/-- On a duplicate-free candidate index, the keys of a successful tally are
exactly the candidates (shared helper for the tally and selection claims). -/
theorem countVotes_ok_keys (cands : List Addr)
    (delegations : Addr → List Addr) (balance : Addr → ℕ)
    (votes : List (Addr × ℕ)) (hnd : cands.Nodup)
    (hok : countVotes cands delegations balance = .ok votes) :
    votes.map Prod.fst = cands := by
  have hne : cands ≠ [] := by
    intro he
    subst he
    cases hok
  rw [countVotes, if_neg (by simp [hne]),
    countVotes_foldl delegations balance cands [] hnd (by simp)] at hok
  have hv := Except.ok.inj hok
  subst hv
  rw [List.nil_append, List.map_map]
  have hid : (Prod.fst ∘ fun c : Addr =>
      (c, (List.map balance (delegations c)).sum)) = fun c : Addr => c := rfl
  rw [hid]
  simp

/-- C9 (confirmed): on a duplicate-free candidate index, the validator set
produced by the selection pipeline (tally, sort, truncate, shuffle, extract)
has no duplicate addresses, contains only addresses present in the candidate
index at tally time, and has size at most `maxValidatorSize`. -/
theorem tryElect_validator_set_shape (cands : List Addr)
    (delegations : Addr → List Addr) (balance : Addr → ℕ)
    (maxSize : ℕ) (rng : ℕ → ℕ → ℕ) (hnd : cands.Nodup)
    (votes : List (Addr × ℕ))
    (hok : countVotes cands delegations balance = .ok votes) :
    (electValidators maxSize rng votes).Nodup
    ∧ (∀ a ∈ electValidators maxSize rng votes, a ∈ cands)
    ∧ (electValidators maxSize rng votes).length ≤ maxSize := by
  have hkeys : votes.map Prod.fst = cands :=
    countVotes_ok_keys cands delegations balance votes hnd hok
  have hmapaddr :
      (votes.map (fun p => sortableAddress.mk p.1 p.2)).map
          sortableAddress.address = cands := by
    rw [List.map_map]
    have hid : (sortableAddress.address ∘ fun p : Addr × ℕ =>
        sortableAddress.mk p.1 p.2) = Prod.fst := rfl
    rw [hid]
    exact hkeys
  set cl := votes.map (fun p => sortableAddress.mk p.1 p.2) with hcl
  have hperm1 : (sortCandidates cl).Perm cl := List.perm_insertionSort _ _
  have hsub : (truncateCandidates maxSize (sortCandidates cl)).Sublist
      (sortCandidates cl) := truncateCandidates_sublist _ _
  have hperm2 : (shuffleCandidates rng
        (truncateCandidates maxSize (sortCandidates cl))).Perm
      (truncateCandidates maxSize (sortCandidates cl)) :=
    shuffleCandidates_perm _ _
  have hnd2 : (cl.map sortableAddress.address).Nodup := by
    rw [hmapaddr]; exact hnd
  have hnd3 : ((sortCandidates cl).map sortableAddress.address).Nodup :=
    ((hperm1.map sortableAddress.address).symm).nodup hnd2
  have hnd4 : ((truncateCandidates maxSize (sortCandidates cl)).map
      sortableAddress.address).Nodup :=
    (hsub.map sortableAddress.address).nodup hnd3
  have hnd5 : ((shuffleCandidates rng
      (truncateCandidates maxSize (sortCandidates cl))).map
      sortableAddress.address).Nodup :=
    ((hperm2.map sortableAddress.address).symm).nodup hnd4
  refine ⟨?_, ?_, ?_⟩
  · simpa [electValidators, hcl] using hnd5
  · intro a ha
    simp only [electValidators] at ha
    rw [← hcl] at ha
    have h1 : a ∈ (truncateCandidates maxSize (sortCandidates cl)).map
        sortableAddress.address :=
      (hperm2.map sortableAddress.address).mem_iff.mp ha
    have h2 : a ∈ (sortCandidates cl).map sortableAddress.address :=
      (hsub.map sortableAddress.address).subset h1
    have h3 : a ∈ cl.map sortableAddress.address :=
      (hperm1.map sortableAddress.address).mem_iff.mp h2
    rw [hmapaddr] at h3
    exact h3
  · simp only [electValidators]
    rw [← hcl, List.length_map, hperm2.length_eq]
    exact truncateCandidates_length _ _

/-- Witness for C9: two candidates with no delegators, a constant draw
stream, `maxValidatorSize = 21`. -/
theorem tryElect_validator_set_shape_witness :
    ([1, 2] : List Addr).Nodup
    ∧ countVotes [1, 2] (fun _ => []) (fun d => d) = .ok [(1, 0), (2, 0)]
    ∧ ((electValidators 21 (fun _ _ => 0) [(1, 0), (2, 0)]).Nodup
      ∧ (∀ a ∈ electValidators 21 (fun _ _ => 0) [(1, 0), (2, 0)],
          a ∈ ([1, 2] : List Addr))
      ∧ (electValidators 21 (fun _ _ => 0) [(1, 0), (2, 0)]).length ≤ 21) :=
  ⟨by decide, by rfl,
    tryElect_validator_set_shape [1, 2] (fun _ => []) (fun d => d) 21
      (fun _ _ => 0) (by decide) [(1, 0), (2, 0)] (by rfl)⟩

/-- The eviction step never touches the persisted validator set. -/
theorem kickStep_validators (cfg : Config) (timeStamp : ℤ)
    (doKickout : Bool) (st : ChainState) :
    (kickStep cfg timeStamp doKickout st).1.validators = st.validators := by
  by_cases hd : doKickout
  · cases hk : kickoutValidator cfg timeStamp st.mintCnt st.validators
        st.candidates with
    | error e => simp [kickStep, hd, hk]
    | ok c => simp [kickStep, hd, hk]
  · simp [kickStep, hd]

/-- C8 (confirmed): when, after the (possible) eviction step, the tally
succeeds with fewer than `safeSize` candidates, the `tryElect` iteration
returns the too-few-candidates error and the persisted validator set
reached by that iteration is exactly the one it started from — no validator
set is committed. -/
theorem tryElect_too_few_no_commit (cfg : Config) (timeStamp : ℤ)
    (randSource : ℤ → ℕ → ℕ → ℕ) (low32 : ℕ) (i : ℤ) (doKickout : Bool)
    (st st1 : ChainState)
    (hks : kickStep cfg timeStamp doKickout st = (st1, none))
    (votes : List (Addr × ℕ))
    (hok : countVotes st1.candidates st1.delegations st1.balance = .ok votes)
    (hlen : votes.length < cfg.safeSize) :
    tryElectIteration cfg timeStamp randSource low32 i doKickout st
        = (st1, some .tooFewCandidates)
    ∧ st1.validators = st.validators := by
  constructor
  · simp [tryElectIteration, hks, hok, hlen]
  · have hv := kickStep_validators cfg timeStamp doKickout st
    rw [hks] at hv
    exact hv

/-- Witness for C8: a single candidate with `safeSize = 15`, no eviction
step; the iteration fails with the too-few-candidates error and leaves the
validator set `[4]` in place. -/
theorem tryElect_too_few_no_commit_witness :
    kickStep ⟨86400, 10, 21, 15, 0⟩ 0 false
        (ChainState.mk [1] (fun _ => []) (fun _ => 0) (fun _ => none) [4])
      = (ChainState.mk [1] (fun _ => []) (fun _ => 0) (fun _ => none) [4],
          none)
    ∧ countVotes [1] (fun _ => []) (fun _ => 0) = .ok [(1, 0)]
    ∧ ([(1, 0)] : List (Addr × ℕ)).length < (15 : ℕ)
    ∧ (tryElectIteration ⟨86400, 10, 21, 15, 0⟩ 0 (fun _ _ _ => 0) 0 0 false
          (ChainState.mk [1] (fun _ => []) (fun _ => 0) (fun _ => none) [4])
        = (ChainState.mk [1] (fun _ => []) (fun _ => 0) (fun _ => none) [4],
            some .tooFewCandidates)
      ∧ (ChainState.mk [1] (fun _ => []) (fun _ => 0) (fun _ => none)
          [4]).validators
        = (ChainState.mk [1] (fun _ => []) (fun _ => 0) (fun _ => none)
          [4]).validators) :=
  ⟨rfl, rfl, by norm_num,
    tryElect_too_few_no_commit ⟨86400, 10, 21, 15, 0⟩ 0 (fun _ _ _ => 0) 0 0
      false
      (ChainState.mk [1] (fun _ => []) (fun _ => 0) (fun _ => none) [4])
      (ChainState.mk [1] (fun _ => []) (fun _ => 0) (fun _ => none) [4])
      rfl [(1, 0)] rfl (by norm_num)⟩

end Dpos
